import Mathlib

/-!
Verification of the GrantHunter discovery pipeline.

This file embeds, in Lean, the core logic of the repository:

* `discoverGrants` (src/services/gemini.ts): cleaning of the model response
  (trim, markdown-fence stripping, bracket slicing), JSON parsing, and the
  mapping of parsed payload elements into Grant records with a generated id
  and a synthesized confidence score;
* `handleRunDiscovery` (src/App.tsx): the run orchestration — API-key guard,
  single-flight guard, extraction/parse phase, deduplication against the
  accumulated Grant repository, conditional notification dispatch, and the
  catch/finally logging structure.

External effects are made explicit: the uuid supply and the Math.random
stream are `Nat`-indexed functions consumed one value per payload element;
the extraction call and the notification dispatch are injected as outcome
parameters (the notification service implementation is not part of the
sources, so its observable behaviour — emitting log entries and possibly
throwing — is modelled from the specification).

JSON.parse (a host builtin) is modelled by an executable recursive-descent
parser over `List Char` producing `Json` values; numbers are modelled as
rationals (decimal numerals, no exponent part) and strings support the basic
escape sequences.  JS objects are association lists of key/value pairs in
insertion order; property writes update in place, as JS object literals do.
-/

/-- JSON values as produced by the host `JSON.parse`. -/
inductive Json where
  | null : Json
  | bool (b : Bool) : Json
  | num (q : ℚ) : Json
  | str (s : String) : Json
  | arr (elems : List Json) : Json
  | obj (fields : List (String × Json)) : Json

/-- A JS object: fields in insertion order. -/
abbrev JsObj := List (String × Json)

/-- JSON whitespace characters (the common subset of the JS `\s` class). -/
def jsWs (c : Char) : Bool :=
  c = ' ' || c = '\t' || c = '\n' || c = '\r'

/-- Skip leading whitespace. -/
def skipWs : List Char → List Char
  | [] => []
  | c :: cs => if jsWs c then skipWs cs else c :: cs

/-- Numeric value of a decimal digit character. -/
def digitVal (c : Char) : Nat := c.toNat - 48

/-- Split off the leading run of decimal digits. -/
def takeDigits : List Char → List Char × List Char
  | [] => ([], [])
  | c :: cs =>
    if c.isDigit then
      let p := takeDigits cs
      (c :: p.1, p.2)
    else ([], c :: cs)

/-- Value of a digit run. -/
def digitsToNat (ds : List Char) : Nat :=
  ds.foldl (fun n c => 10 * n + digitVal c) 0

/-- Parse the digits of a JSON number after an optional minus sign. -/
def parseNumAfterSign (cs : List Char) : Option (ℚ × List Char) :=
  match takeDigits cs with
  | ([], _) => none
  | (ds, rest) =>
    match rest with
    | '.' :: rest2 =>
      match takeDigits rest2 with
      | ([], _) => none
      | (fs, rest3) =>
        some ((digitsToNat ds : ℚ) + (digitsToNat fs : ℚ) / ((10 : ℚ) ^ fs.length), rest3)
    | _ => some ((digitsToNat ds : ℚ), rest)

/-- Parse a JSON number (optional minus sign, integer part, optional fraction). -/
def parseNum (cs : List Char) : Option (ℚ × List Char) :=
  match cs with
  | '-' :: rest => (parseNumAfterSign rest).map (fun p => (-p.1, p.2))
  | _ => parseNumAfterSign cs

/-- Translate a JSON string escape character. -/
def escChar (c : Char) : Option Char :=
  if c = '"' then some '"'
  else if c = '\\' then some '\\'
  else if c = '/' then some '/'
  else if c = 'n' then some '\n'
  else if c = 't' then some '\t'
  else if c = 'r' then some '\r'
  else none

/-- Parse the body of a JSON string literal (after the opening quote),
returning the decoded characters and the remainder after the closing quote. -/
def parseStrChars : List Char → Option (List Char × List Char)
  | [] => none
  | '"' :: rest => some ([], rest)
  | '\\' :: rest =>
    match rest with
    | [] => none
    | e :: rest2 =>
      match escChar e with
      | none => none
      | some c =>
        match parseStrChars rest2 with
        | none => none
        | some (s, r) => some (c :: s, r)
  | c :: rest =>
    match parseStrChars rest with
    | none => none
    | some (s, r) => some (c :: s, r)

mutual

/-- Parse one JSON value (fuelled recursive descent). -/
def parseVal : Nat → List Char → Option (Json × List Char)
  | 0, _ => none
  | fuel + 1, cs =>
    match skipWs cs with
    | [] => none
    | 'n' :: 'u' :: 'l' :: 'l' :: rest => some (Json.null, rest)
    | 't' :: 'r' :: 'u' :: 'e' :: rest => some (Json.bool true, rest)
    | 'f' :: 'a' :: 'l' :: 's' :: 'e' :: rest => some (Json.bool false, rest)
    | '"' :: rest =>
      match parseStrChars rest with
      | none => none
      | some (s, r) => some (Json.str (String.mk s), r)
    | '[' :: rest =>
      match skipWs rest with
      | ']' :: r => some (Json.arr [], r)
      | _ =>
        match parseElems fuel rest with
        | none => none
        | some (vs, r) => some (Json.arr vs, r)
    | '{' :: rest =>
      match skipWs rest with
      | '}' :: r => some (Json.obj [], r)
      | _ =>
        match parseMembers fuel rest with
        | none => none
        | some (ms, r) => some (Json.obj ms, r)
    | c :: rest =>
      if c = '-' || c.isDigit then
        match parseNum (c :: rest) with
        | none => none
        | some (q, r) => some (Json.num q, r)
      else none

/-- Parse the comma-separated elements of a non-empty JSON array, including
the closing bracket. -/
def parseElems : Nat → List Char → Option (List Json × List Char)
  | 0, _ => none
  | fuel + 1, cs =>
    match parseVal fuel cs with
    | none => none
    | some (v, rest) =>
      match skipWs rest with
      | ',' :: rest2 =>
        match parseElems fuel rest2 with
        | none => none
        | some (vs, r) => some (v :: vs, r)
      | ']' :: rest2 => some ([v], rest2)
      | _ => none

/-- Parse the members of a non-empty JSON object, including the closing brace. -/
def parseMembers : Nat → List Char → Option (List (String × Json) × List Char)
  | 0, _ => none
  | fuel + 1, cs =>
    match skipWs cs with
    | '"' :: rest =>
      match parseStrChars rest with
      | none => none
      | some (k, rest2) =>
        match skipWs rest2 with
        | ':' :: rest3 =>
          match parseVal fuel rest3 with
          | none => none
          | some (v, rest4) =>
            match skipWs rest4 with
            | ',' :: rest5 =>
              match parseMembers fuel rest5 with
              | none => none
              | some (ms, r) => some ((String.mk k, v) :: ms, r)
            | '}' :: rest5 => some ([(String.mk k, v)], rest5)
            | _ => none
        | _ => none
    | _ => none

end

/-- Model of the host `JSON.parse`: parse one value and require only
whitespace after it. -/
def jsonParse (cs : List Char) : Option Json :=
  match parseVal (2 * cs.length + 2) cs with
  | none => none
  | some (v, rest) => if skipWs rest = [] then some v else none

/-- Field lookup on a JS object. -/
def jlookup (k : String) : JsObj → Option Json
  | [] => none
  | p :: rest => if p.1 = k then some p.2 else jlookup k rest

/-- A JS property write: update in place if the key exists, append otherwise
(the semantics of a repeated key in an object literal). -/
def writeProp (k : String) (v : Json) : JsObj → JsObj
  | [] => [(k, v)]
  | p :: rest => if p.1 = k then (k, v) :: rest else p :: writeProp k v rest

/-- The own enumerable properties contributed by `...item` in an object
literal.  Spreading a primitive contributes nothing; spreading an array or a
string contributes only numeric-index keys, none of which collide with the
named fields this program reads, so they are elided here. -/
def jsSpreadFields : Json → JsObj
  | Json.obj kvs => kvs
  | _ => []

/-- The confidence score computed for element `i`:
`0.9 + (Math.random() * 0.09)` with `rand i` the i-th Math.random draw. -/
def confAt (rand : Nat → ℚ) (i : Nat) : ℚ := 9 / 10 + rand i * (9 / 100)

/-- The object literal `{ id: uuidv4(), ...item, confidence_score: c }`
from `discoverGrants`, with `u` the generated uuid and `conf` the score. -/
def mkGrant (u : String) (conf : ℚ) (item : Json) : JsObj :=
  writeProp "confidence_score" (Json.num conf)
    ((jsSpreadFields item).foldl (fun o p => writeProp p.1 p.2 o)
      (writeProp "id" (Json.str u) []))

/-- Model of `parsedData.map(...)` where element `i` consumes the i-th uuid and the
i-th Math.random draw. -/
def mapWithIdx (f : Nat → Json → JsObj) : Nat → List Json → List JsObj
  | _, [] => []
  | i, x :: xs => f i x :: mapWithIdx f (i + 1) xs

/-- The opening fence marker matched by the regex `^`+"```json"+`\s*`. -/
def fenceOpen : List Char := "```json".toList

/-- The closing fence marker matched by the regex `\s*`+"```"+`$`. -/
def fenceClose : List Char := "```".toList

/-- Remove trailing whitespace. -/
def rtrim (cs : List Char) : List Char :=
  (cs.reverse.dropWhile jsWs).reverse

/-- Model of `text.trim()`. -/
def jsTrim (cs : List Char) : List Char :=
  rtrim (cs.dropWhile jsWs)

/-- Model of `.replace(/^```json\s*/, '')`: strip a leading "```json" marker and the
whitespace after it, if present. -/
def stripLeadFence (cs : List Char) : List Char :=
  if fenceOpen.isPrefixOf cs then (cs.drop fenceOpen.length).dropWhile jsWs else cs

/-- Model of `.replace(/\s*```$/, '')`: strip a trailing "```" marker and the
whitespace before it, if present. -/
def stripTrailFence (cs : List Char) : List Char :=
  if fenceClose.isSuffixOf cs then rtrim (cs.take (cs.length - fenceClose.length)) else cs

/-- The response cleaning performed by `discoverGrants` before slicing:
trim, strip an opening fence, strip a closing fence. -/
def cleanResponse (cs : List Char) : List Char :=
  stripTrailFence (stripLeadFence (jsTrim cs))

/-- First index of a character, `text.indexOf(c)` (None for -1). -/
def idxFirst (c : Char) : List Char → Option Nat
  | [] => none
  | x :: xs => if x = c then some 0 else (idxFirst c xs).map (fun n => n + 1)

/-- Last index of a character, `text.lastIndexOf(c)` (None for -1). -/
def idxLast (c : Char) (cs : List Char) : Option Nat :=
  (idxFirst c cs.reverse).map (fun k => cs.length - 1 - k)

/-- Model of `String.prototype.substring(a, b)`: swaps its arguments when `a > b`. -/
def jsSubstring (cs : List Char) (a b : Nat) : List Char :=
  ((cs.drop (min a b)).take (max a b - min a b))

/-- The parse stage of `discoverGrants` (src/services/gemini.ts): clean the
raw text, locate the first `[` and the last `]`, slice, `JSON.parse`, and map
the elements into Grant objects.  A missing bracket, a JSON parse failure,
and a successful parse of a non-array (on which `.map` is not a function)
all throw, which the orchestrator observes as a failed run. -/
def discoverGrantsParse (fresh : Nat → String) (rand : Nat → ℚ) (text : List Char) :
    Except Unit (List JsObj) :=
  let cleanJson := cleanResponse text
  match idxFirst '[' cleanJson, idxLast ']' cleanJson with
  | some startIdx, some endIdx =>
    match jsonParse (jsSubstring cleanJson startIdx (endIdx + 1)) with
    | some (Json.arr parsedData) =>
      Except.ok (mapWithIdx (fun i item => mkGrant (fresh i) (confAt rand i) item) 0 parsedData)
    | some _ => Except.error ()
    | none => Except.error ()
  | _, _ => Except.error ()

/-- Whether a run of the parse stage failed. -/
def isErr : Except Unit (List JsObj) → Bool
  | Except.error _ => true
  | Except.ok _ => false

/-- Log severity levels (src/types.ts). -/
inductive LogLevel where
  | INFO | SUCCESS | WARNING | ERROR
deriving DecidableEq

/-- One progress log record.  The uuid and wall-clock timestamp attached by
`addLog` are ambient nondeterminism with no control-flow role and are elided;
a log entry is its level and message. -/
structure LogEntry where
  level : LogLevel
  message : String
deriving DecidableEq

/-- Run parameters (src/types.ts `SearchConfig`). -/
structure SearchConfig where
  keywords : List String
  year : Int
  emailRecipient : String
  notificationEnabled : Bool

/-- The component state of `App` that `handleRunDiscovery` reads and writes. -/
structure AppState where
  isScanning : Bool
  logs : List LogEntry
  grants : List JsObj

/-- The result of one invocation of `handleRunDiscovery`: the new component
state, plus whether `sendNotification` was invoked during the run. -/
structure RunResult where
  state : AppState
  notified : Bool

/-- The log emitted when `process.env.API_KEY` is absent. -/
def apiKeyMissingLog : LogEntry :=
  ⟨LogLevel.ERROR, "ERROR: API Key is missing. Please set process.env.API_KEY."⟩

/-- The log opening a run. -/
def startLog : LogEntry := ⟨LogLevel.INFO, "Starting new discovery sequence..."⟩

/-- The log emitted by the catch block of `handleRunDiscovery`. -/
def abortLog : LogEntry := ⟨LogLevel.ERROR, "Discovery sequence aborted due to critical error."⟩

/-- The log emitted by the finally block of `handleRunDiscovery`. -/
def finalLog : LogEntry := ⟨LogLevel.INFO, "Sequence finalized. System Idle."⟩

/-- The log emitted when notification is skipped. -/
def skipLog : LogEntry := ⟨LogLevel.INFO, "Skipping email notification (Disabled or no recipient)."⟩

/-- The duplicate-filter warning log. -/
def dupLog (n : Nat) : LogEntry :=
  ⟨LogLevel.WARNING, "Filtered " ++ toString n ++ " duplicates."⟩

/-- Model of `toLowerCase()` as character-wise lowering (the titles this
program compares are ASCII; `String.toLower` itself maps `Char.toLower`
over the characters). -/
def jsToLower (s : String) : String := String.mk (s.data.map Char.toLower)

/-- Computes `g.program_title.toLowerCase()`, the deduplication key of a Grant. -/
def lowerTitle (g : JsObj) : String :=
  match jlookup "program_title" g with
  | some (Json.str s) => jsToLower s
  | _ => ""

/-- The deduplication step of `handleRunDiscovery`:
`results.filter(g => !existingTitles.has(g.program_title.toLowerCase()))`. -/
def filterNew (candidates : List JsObj) (existingLower : List String) : List JsObj :=
  candidates.filter (fun g => !(existingLower.contains (lowerTitle g)))

/-- The duplicate count the run reports:
`results.length - uniqueResults.length`. -/
def filteredCount (candidates : List JsObj) (existingLower : List String) : Nat :=
  candidates.length - (filterNew candidates existingLower).length

/-- One invocation of `handleRunDiscovery` (src/App.tsx), with its external
effects injected:

* `apiKey` — whether `process.env.API_KEY` is set (a process-wide constant);
* `discover` — the outcome of `await discoverGrants(...)`: the parsed Grant
  list, or a thrown error (extraction failure or parse failure);
* `dLogs` — the log entries `discoverGrants` emitted through its callback;
* `notifyFails`, `nLogs` — the outcome of `await sendNotification(...)` and
  the log entries it emitted.  The notification service itself is not among
  the sources; modelled from the spec: it produces a single dispatch attempt,
  reports via the log stream, and may fail with a thrown NotificationError.

The function mirrors the source: API-key guard (which logs and returns),
single-flight guard (`if (isScanning) return`), log reset, discovery,
deduplication against the accumulated grants, merge, conditional
notification, catch (ERROR log) and finally (scanning off, finalize log). -/
def handleRunDiscovery (apiKey : Bool) (cfg : SearchConfig)
    (discover : Except Unit (List JsObj)) (dLogs : List LogEntry)
    (notifyFails : Bool) (nLogs : List LogEntry) (s : AppState) : RunResult :=
  if apiKey = false then
    ⟨⟨s.isScanning, s.logs ++ [apiKeyMissingLog], s.grants⟩, false⟩
  else if s.isScanning then ⟨s, false⟩
  else
    match discover with
    | Except.error _ =>
      ⟨⟨false, [startLog] ++ dLogs ++ [abortLog, finalLog], s.grants⟩, false⟩
    | Except.ok results =>
      let existingLower := s.grants.map lowerTitle
      let newGrants := filterNew results existingLower
      let dupLogs : List LogEntry :=
        if newGrants.length < results.length
        then [dupLog (results.length - newGrants.length)] else []
      let grants2 := newGrants ++ s.grants
      let logs2 := [startLog] ++ dLogs ++ dupLogs
      if (!newGrants.isEmpty) && cfg.notificationEnabled && (cfg.emailRecipient != "") then
        if notifyFails then
          ⟨⟨false, logs2 ++ nLogs ++ [abortLog, finalLog], grants2⟩, true⟩
        else
          ⟨⟨false, logs2 ++ nLogs ++ [finalLog], grants2⟩, true⟩
      else if (!newGrants.isEmpty) && (!cfg.notificationEnabled || cfg.emailRecipient == "") then
        ⟨⟨false, logs2 ++ [skipLog, finalLog], grants2⟩, false⟩
      else
        ⟨⟨false, logs2 ++ [finalLog], grants2⟩, false⟩

/-- The external inputs of one run in a multi-run trace. -/
structure RunInput where
  apiKey : Bool
  cfg : SearchConfig
  discover : Except Unit (List JsObj)
  dLogs : List LogEntry
  notifyFails : Bool
  nLogs : List LogEntry

/-- The state after mount: not scanning, welcome log, empty repository. -/
def initialState : AppState :=
  ⟨false, [⟨LogLevel.INFO, "System initialized. Ready for discovery run."⟩], []⟩

/-- Run a sequence of discovery invocations from a given state. -/
def runTraceFrom (s : AppState) : List RunInput → AppState
  | [] => s
  | i :: rest =>
    runTraceFrom (handleRunDiscovery i.apiKey i.cfg i.discover i.dLogs i.notifyFails i.nLogs s).state rest

/-- Run a sequence of discovery invocations from the initial state. -/
def runTrace (inputs : List RunInput) : AppState := runTraceFrom initialState inputs

/-- The repository invariant of claim C8: no two Grants share a lower-cased
program title. -/
def titlesNodup (gs : List JsObj) : Prop := (gs.map lowerTitle).Nodup

instance (gs : List JsObj) : Decidable (titlesNodup gs) := by
  unfold titlesNodup; infer_instance

theorem jlookup_writeProp_same (k : String) (v : Json) (o : JsObj) :
    jlookup k (writeProp k v o) = some v := by
  induction o with
  | nil => simp [writeProp, jlookup]
  | cons p rest ih =>
    by_cases hp : p.1 = k
    · simp [writeProp, hp, jlookup]
    · simp [writeProp, hp, jlookup, ih]

theorem jlookup_writeProp_ne (k k' : String) (v : Json) (o : JsObj) (h : k' ≠ k) :
    jlookup k (writeProp k' v o) = jlookup k o := by
  induction o with
  | nil => simp [writeProp, jlookup, h]
  | cons p rest ih =>
    by_cases hp : p.1 = k'
    · simp [writeProp, hp, jlookup, h]
    · simp only [writeProp, if_neg hp]
      by_cases hk : p.1 = k
      · simp [jlookup, hk]
      · simp [jlookup, hk, ih]

theorem jlookup_none_forall (k : String) (o : JsObj) :
    jlookup k o = none ↔ ∀ p ∈ o, p.1 ≠ k := by
  induction o with
  | nil => simp [jlookup]
  | cons p rest ih =>
    by_cases hp : p.1 = k
    · simp [jlookup, hp]
    · simp [jlookup, hp, ih]

theorem jlookup_foldl_write (k : String) (kvs : List (String × Json)) (o : JsObj)
    (h : ∀ p ∈ kvs, p.1 ≠ k) :
    jlookup k (kvs.foldl (fun acc p => writeProp p.1 p.2 acc) o) = jlookup k o := by
  induction kvs generalizing o with
  | nil => rfl
  | cons q rest ih =>
    simp only [List.foldl_cons]
    rw [ih _ (fun p hp => h p (List.mem_cons_of_mem _ hp))]
    exact jlookup_writeProp_ne _ _ _ _ (h q (List.mem_cons_self _ _))

/-- The confidence score written last in the object literal always wins,
whatever fields the payload element carries. -/
theorem jlookup_mkGrant_conf (u : String) (conf : ℚ) (item : Json) :
    jlookup "confidence_score" (mkGrant u conf item) = some (Json.num conf) := by
  unfold mkGrant
  exact jlookup_writeProp_same _ _ _

/-- When the payload element carries no `id` field, the generated uuid
written first in the object literal survives. -/
theorem jlookup_mkGrant_id (u : String) (conf : ℚ) (item : Json)
    (h : jlookup "id" (jsSpreadFields item) = none) :
    jlookup "id" (mkGrant u conf item) = some (Json.str u) := by
  unfold mkGrant
  rw [jlookup_writeProp_ne _ _ _ _ (by decide)]
  rw [jlookup_foldl_write _ _ _ ((jlookup_none_forall _ _).1 h)]
  simp [writeProp, jlookup]

theorem mapWithIdx_getElem? (f : Nat → Json → JsObj) (n i : Nat) (ps : List Json) :
    (mapWithIdx f n ps)[i]? = (ps[i]?).map (fun item => f (n + i) item) := by
  induction ps generalizing n i with
  | nil => simp [mapWithIdx]
  | cons x xs ih =>
    cases i with
    | zero => simp [mapWithIdx]
    | succ j =>
      simp only [mapWithIdx, List.getElem?_cons_succ, ih (n + 1) j]
      have h : n + 1 + j = n + (j + 1) := by omega
      rw [h]

/-- Inversion of a successful parse stage: the grants are exactly the map of
the parsed payload array, element `i` consuming the i-th uuid and the i-th
random draw. -/
theorem discoverOk_structure (fresh : Nat → String) (rand : Nat → ℚ) (text : List Char)
    (grants : List JsObj)
    (hok : discoverGrantsParse fresh rand text = Except.ok grants) :
    ∃ ps : List Json,
      grants = mapWithIdx (fun i item => mkGrant (fresh i) (confAt rand i) item) 0 ps := by
  unfold discoverGrantsParse at hok
  dsimp only [] at hok
  split at hok
  · split at hok
    · rename_i parsedData _
      refine ⟨parsedData, ?_⟩
      cases hok
      rfl
    · exact absurd hok (by simp)
    · exact absurd hok (by simp)
  · exact absurd hok (by simp)

/-- Bounds for the synthesized confidence score. -/
theorem confAt_bounds (rand : Nat → ℚ) (i : Nat) (h0 : 0 ≤ rand i) (h1 : rand i < 1) :
    9 / 10 ≤ confAt rand i ∧ confAt rand i < 99 / 100 := by
  unfold confAt
  constructor
  · nlinarith
  · nlinarith

/-- C10: every Grant produced by the parse step carries a confidence_score
equal to the parser's own formula `0.9 + Math.random() * 0.09`, hence in
`[0.90, 0.99)`, regardless of what the payload element contained. -/
theorem c10_confidence_range (fresh : Nat → String) (rand : Nat → ℚ) (text : List Char)
    (grants : List JsObj)
    (hrand : ∀ n : Nat, 0 ≤ rand n ∧ rand n < 1)
    (hok : discoverGrantsParse fresh rand text = Except.ok grants) :
    ∀ i : Nat, ∀ g : JsObj, grants[i]? = some g →
      jlookup "confidence_score" g = some (Json.num (confAt rand i)) ∧
      9 / 10 ≤ confAt rand i ∧ confAt rand i < 99 / 100 := by
  obtain ⟨ps, hps⟩ := discoverOk_structure fresh rand text grants hok
  subst hps
  intro i g hg
  rw [mapWithIdx_getElem?] at hg
  cases hps' : ps[i]? with
  | none => rw [hps'] at hg; simp at hg
  | some item =>
    rw [hps'] at hg
    simp only [Option.map_some', Option.some.injEq, Nat.zero_add] at hg
    refine ⟨?_, confAt_bounds rand i (hrand i).1 (hrand i).2⟩
    rw [← hg]
    exact jlookup_mkGrant_conf _ _ _

/-- A Math.random stream for the C10 witness. -/
def wRand : Nat → ℚ := fun _ => 0

/-- A uuid supply for witnesses; injective by construction. -/
def wFresh : Nat → String := fun n => String.mk (List.replicate n 'a')

/-- Witness for C10 at a concrete parse of `"[null]"`. -/
theorem c10_confidence_range_witness :
    (∀ n : Nat, 0 ≤ wRand n ∧ wRand n < 1) ∧
    discoverGrantsParse wFresh wRand "[null]".toList =
      Except.ok [mkGrant (wFresh 0) (confAt wRand 0) Json.null] ∧
    (∀ i : Nat, ∀ g : JsObj,
      ([mkGrant (wFresh 0) (confAt wRand 0) Json.null] : List JsObj)[i]? = some g →
      jlookup "confidence_score" g = some (Json.num (confAt wRand i)) ∧
      9 / 10 ≤ confAt wRand i ∧ confAt wRand i < 99 / 100) := by
  have hr : ∀ n : Nat, 0 ≤ wRand n ∧ wRand n < 1 := by
    intro n
    constructor <;> norm_num [wRand]
  have hok : discoverGrantsParse wFresh wRand "[null]".toList =
      Except.ok [mkGrant (wFresh 0) (confAt wRand 0) Json.null] := rfl
  exact ⟨hr, hok, c10_confidence_range wFresh wRand _ _ hr hok⟩

/-- The double-quote character. -/
def qMark : Char := Char.ofNat 34

/-- The opening brace character. -/
def lBrace : Char := Char.ofNat 123

/-- The closing brace character. -/
def rBrace : Char := Char.ofNat 125

/-- The characters of the response text `[{"id":"x"},{"id":"x"}]`. -/
def c9text : List Char :=
  ['[', lBrace, qMark, 'i', 'd', qMark, ':', qMark, 'x', qMark, rBrace, ',',
   lBrace, qMark, 'i', 'd', qMark, ':', qMark, 'x', qMark, rBrace, ']']

/-- Project a successful parse result to the `id` field of each Grant. -/
def okIds : Except Unit (List JsObj) → Option (List (Option Json))
  | Except.ok gs => some (gs.map (fun g => jlookup "id" g))
  | Except.error _ => none

/-- C9 counterexample: the object literal spreads the payload element after
writing the generated id (`{ id: uuidv4(), ...item, ... }`), so a payload
element carrying its own `id` field overrides the generated uuid.  Parsing
`[{"id":"x"},{"id":"x"}]` with uuid supply `wFresh` yields two Grants whose
ids are both `"x"`: neither freshly generated nor pairwise distinct. -/
theorem c9_counterexample :
    okIds (discoverGrantsParse wFresh wRand c9text) =
      some [some (Json.str "x"), some (Json.str "x")] := rfl

/-- C9 (amended): every Grant whose payload element does not itself carry an
`id` field receives the freshly generated uuid for its position, and for an
injective uuid supply those ids are pairwise distinct; a payload element
carrying an `id` field overrides the generated id. -/
theorem c9_fresh_ids (fresh : Nat → String) (rand : Nat → ℚ) (text : List Char)
    (grants : List JsObj)
    (hinj : ∀ m n : Nat, fresh m = fresh n → m = n)
    (hok : discoverGrantsParse fresh rand text = Except.ok grants) :
    ∃ ps : List Json,
      grants = mapWithIdx (fun i item => mkGrant (fresh i) (confAt rand i) item) 0 ps ∧
      (∀ i : Nat, ∀ item : Json, ps[i]? = some item →
        jlookup "id" (jsSpreadFields item) = none →
        (grants[i]?).bind (jlookup "id") = some (Json.str (fresh i))) ∧
      (∀ i j : Nat, ∀ itemI itemJ : Json, i ≠ j →
        ps[i]? = some itemI → ps[j]? = some itemJ →
        jlookup "id" (jsSpreadFields itemI) = none →
        jlookup "id" (jsSpreadFields itemJ) = none →
        (grants[i]?).bind (jlookup "id") ≠ (grants[j]?).bind (jlookup "id")) := by
  obtain ⟨ps, hps⟩ := discoverOk_structure fresh rand text grants hok
  refine ⟨ps, hps, ?_, ?_⟩
  case refine_1 =>
    intro i item hitem hidfree
    rw [hps, mapWithIdx_getElem?, hitem]
    simp only [Option.map_some', Option.some_bind, Nat.zero_add]
    exact jlookup_mkGrant_id _ _ _ hidfree
  case refine_2 =>
    intro i j itemI itemJ hij hi hj hfI hfJ
    rw [hps, mapWithIdx_getElem?, mapWithIdx_getElem?, hi, hj]
    simp only [Option.map_some', Option.some_bind, Nat.zero_add]
    intro heq
    rw [jlookup_mkGrant_id _ _ _ hfI, jlookup_mkGrant_id _ _ _ hfJ] at heq
    have hstr : Json.str (fresh i) = Json.str (fresh j) := by
      injection heq
    have hfr : fresh i = fresh j := by injection hstr
    exact hij (hinj i j hfr)

/-- Witness for the amended C9 at a concrete parse of `"[]"`. -/
theorem c9_fresh_ids_witness :
    (∀ m n : Nat, wFresh m = wFresh n → m = n) ∧
    discoverGrantsParse wFresh wRand "[]".toList = Except.ok [] ∧
    (∃ ps : List Json,
      ([] : List JsObj) = mapWithIdx (fun i item => mkGrant (wFresh i) (confAt wRand i) item) 0 ps ∧
      (∀ i : Nat, ∀ item : Json, ps[i]? = some item →
        jlookup "id" (jsSpreadFields item) = none →
        (([] : List JsObj)[i]?).bind (jlookup "id") = some (Json.str (wFresh i))) ∧
      (∀ i j : Nat, ∀ itemI itemJ : Json, i ≠ j →
        ps[i]? = some itemI → ps[j]? = some itemJ →
        jlookup "id" (jsSpreadFields itemI) = none →
        jlookup "id" (jsSpreadFields itemJ) = none →
        (([] : List JsObj)[i]?).bind (jlookup "id") ≠ (([] : List JsObj)[j]?).bind (jlookup "id"))) := by
  have hinj : ∀ m n : Nat, wFresh m = wFresh n → m = n := by
    intro m n h
    have hd : List.replicate m 'a' = List.replicate n 'a' := congrArg String.data h
    have hl := congrArg List.length hd
    simpa using hl
  have hok : discoverGrantsParse wFresh wRand "[]".toList = Except.ok [] := rfl
  exact ⟨hinj, hok, c9_fresh_ids wFresh wRand _ _ hinj hok⟩

theorem skipWs_subset (cs : List Char) : ∀ x, x ∈ skipWs cs → x ∈ cs := by
  induction cs with
  | nil => intro x hx; simp [skipWs] at hx
  | cons c rest ih =>
    intro x hx
    by_cases hc : jsWs c
    · simp only [skipWs, if_pos hc] at hx
      exact List.mem_cons_of_mem _ (ih x hx)
    · simp only [skipWs, if_neg hc] at hx
      exact hx

theorem skipWs_of_head_not_ws (c : Char) (rest : List Char) (h : jsWs c = false) :
    skipWs (c :: rest) = c :: rest := by
  simp [skipWs, h]

/-- A successfully parsed value whose input starts (after whitespace) with
`[` is an array. -/
theorem parseVal_head_bracket (fuel : Nat) (cs : List Char) (v : Json) (r : List Char)
    (h : parseVal fuel cs = some (v, r)) (hh : (skipWs cs).head? = some '[') :
    ∃ xs, v = Json.arr xs := by
  cases fuel with
  | zero => exact absurd h (by simp [parseVal])
  | succ fuel =>
    rw [parseVal] at h
    split at h
    · exact absurd h (by simp)
    all_goals rename_i heq
    · rw [heq] at hh
      simp only [List.head?_cons, Option.some.injEq] at hh
      exact absurd hh (by decide)
    · rw [heq] at hh
      simp only [List.head?_cons, Option.some.injEq] at hh
      exact absurd hh (by decide)
    · rw [heq] at hh
      simp only [List.head?_cons, Option.some.injEq] at hh
      exact absurd hh (by decide)
    · rw [heq] at hh
      simp only [List.head?_cons, Option.some.injEq] at hh
      exact absurd hh (by decide)
    · split at h
      · cases h
        exact ⟨[], rfl⟩
      · split at h
        · exact absurd h (by simp)
        · cases h
          exact ⟨_, rfl⟩
    · rw [heq] at hh
      simp only [List.head?_cons, Option.some.injEq] at hh
      exact absurd hh (by decide)
    · rw [heq] at hh
      simp only [List.head?_cons, Option.some.injEq] at hh
      subst hh
      simp_all

/-- A successfully parsed array input contains a `[`. -/
theorem parseVal_arr_mem (fuel : Nat) (cs : List Char) (xs : List Json) (r : List Char)
    (h : parseVal fuel cs = some (Json.arr xs, r)) : '[' ∈ cs := by
  cases fuel with
  | zero => exact absurd h (by simp [parseVal])
  | succ fuel =>
    rw [parseVal] at h
    split at h
    · exact absurd h (by simp)
    all_goals rename_i heq
    · exact absurd h (by simp)
    · exact absurd h (by simp)
    · exact absurd h (by simp)
    · split at h
      · exact absurd h (by simp)
      · exact absurd h (by simp)
    · apply skipWs_subset
      rw [heq]
      exact List.mem_cons_self _ _
    · split at h
      · exact absurd h (by simp)
      · split at h
        · exact absurd h (by simp)
        · exact absurd h (by simp)
    · split at h
      · split at h
        · exact absurd h (by simp)
        · exact absurd h (by simp)
      · exact absurd h (by simp)

theorem jsonParse_head_bracket (cs : List Char) (v : Json)
    (h : jsonParse cs = some v) (hh : cs.head? = some '[') : ∃ xs, v = Json.arr xs := by
  unfold jsonParse at h
  split at h
  · exact absurd h (by simp)
  · rename_i p heq
    split at h
    · cases h
      apply parseVal_head_bracket _ _ _ _ heq
      cases cs with
      | nil => exact absurd hh (by simp)
      | cons c rest =>
        simp only [List.head?_cons, Option.some.injEq] at hh
        subst hh
        rw [skipWs_of_head_not_ws _ _ (by decide)]
        simp
    · exact absurd h (by simp)

theorem jsonParse_arr_mem (cs : List Char) (xs : List Json)
    (h : jsonParse cs = some (Json.arr xs)) : '[' ∈ cs := by
  unfold jsonParse at h
  split at h
  · exact absurd h (by simp)
  · rename_i p heq
    split at h
    · cases h
      exact parseVal_arr_mem _ _ _ _ heq
    · exact absurd h (by simp)

theorem idxFirst_spec (c : Char) (cs : List Char) (i : Nat) (h : idxFirst c cs = some i) :
    cs[i]? = some c ∧ ∀ k, k < i → cs[k]? ≠ some c := by
  induction cs generalizing i with
  | nil => simp [idxFirst] at h
  | cons x xs ih =>
    by_cases hx : x = c
    · simp only [idxFirst, if_pos hx, Option.some.injEq] at h
      subst h
      refine ⟨by simp [hx], ?_⟩
      intro k hk
      exact absurd hk (Nat.not_lt_zero k)
    · simp only [idxFirst, if_neg hx] at h
      cases hj : idxFirst c xs with
      | none => rw [hj] at h; simp at h
      | some j =>
        rw [hj] at h
        simp only [Option.map_some', Option.some.injEq] at h
        subst h
        obtain ⟨h1, h2⟩ := ih j hj
        refine ⟨by simpa using h1, ?_⟩
        intro k hk
        cases k with
        | zero => simp [hx]
        | succ k' =>
          simp only [List.getElem?_cons_succ]
          exact h2 k' (by omega)

theorem idxLast_spec (c : Char) (cs : List Char) (j : Nat) (h : idxLast c cs = some j) :
    cs[j]? = some c ∧ ∀ k, j < k → cs[k]? ≠ some c := by
  unfold idxLast at h
  cases hr : idxFirst c cs.reverse with
  | none => rw [hr] at h; simp at h
  | some k0 =>
    rw [hr] at h
    simp only [Option.map_some', Option.some.injEq] at h
    subst h
    obtain ⟨h1, h2⟩ := idxFirst_spec c cs.reverse k0 hr
    have hk0 : k0 < cs.length := by
      by_contra hk
      rw [List.getElem?_eq_none (by rw [List.length_reverse]; omega)] at h1
      exact absurd h1 (by simp)
    refine ⟨?_, ?_⟩
    · rw [List.getElem?_reverse hk0] at h1
      exact h1
    · intro k hk hkc
      have hklen : k < cs.length := by
        rcases List.getElem?_eq_some.1 hkc with ⟨hlt, _⟩
        exact hlt
      have hrev : cs.reverse[cs.length - 1 - k]? = some c := by
        have harg : cs.length - 1 - (cs.length - 1 - k) = k := by omega
        rw [List.getElem?_reverse (by omega), harg]
        exact hkc
      exact h2 (cs.length - 1 - k) (by omega) hrev

/-- The substring "from the first `[` through the last `]`" named by the
spec: taken forward when the first `[` precedes the last `]`, empty
otherwise. -/
def claimSlice (cs : List Char) (i j : Nat) : List Char :=
  if i ≤ j then (cs.drop i).take (j + 1 - i) else []

/-- C4: the parse stage fails (returning no Grants) exactly when, after
trimming and fence-stripping, the text has no `[`, or no `]`, or the
substring from the first `[` through the last `]` is not valid JSON.  (When
the first `[` lies after the last `]` that substring is empty, hence not
valid JSON; the code also fails on such inputs, via the argument-swapping
`substring` followed by a failed parse or a non-array parse result.) -/
theorem c4_parse_error_iff (fresh : Nat → String) (rand : Nat → ℚ) (text : List Char) :
    isErr (discoverGrantsParse fresh rand text) = true ↔
      (idxFirst '[' (cleanResponse text) = none ∨
       idxLast ']' (cleanResponse text) = none ∨
       (∃ i j, idxFirst '[' (cleanResponse text) = some i ∧
               idxLast ']' (cleanResponse text) = some j ∧
               jsonParse (claimSlice (cleanResponse text) i j) = none)) := by
  unfold discoverGrantsParse
  cases h1 : idxFirst '[' (cleanResponse text) with
  | none => simp [h1, isErr]
  | some i =>
    cases h2 : idxLast ']' (cleanResponse text) with
    | none => simp [h1, h2, isErr]
    | some j =>
      simp only [h1, h2, Option.some.injEq, false_or, reduceCtorEq,
        exists_eq_left', exists_and_left, exists_eq_left]
      by_cases hij : i ≤ j
      · have hsl : jsSubstring (cleanResponse text) i (j + 1) = claimSlice (cleanResponse text) i j := by
          unfold jsSubstring claimSlice
          have hmin : min i (j + 1) = i := by omega
          have hmax : max i (j + 1) = j + 1 := by omega
          rw [if_pos hij, hmin, hmax]
        rw [hsl]
        cases hp : jsonParse (claimSlice (cleanResponse text) i j) with
        | none => simp [hp, isErr]
        | some v =>
          have hhead : (claimSlice (cleanResponse text) i j).head? = some '[' := by
            obtain ⟨hi1, _⟩ := idxFirst_spec _ _ _ h1
            unfold claimSlice
            rw [if_pos hij, List.head?_eq_getElem?, List.getElem?_take,
              if_pos (by omega), List.getElem?_drop]
            simpa using hi1
          obtain ⟨xs, rfl⟩ := jsonParse_head_bracket _ _ hp hhead
          simp [hp, isErr]
      · have hcl : claimSlice (cleanResponse text) i j = [] := by
          unfold claimSlice
          rw [if_neg hij]
        rw [hcl]
        have hnil : jsonParse ([] : List Char) = none := rfl
        cases hp : jsonParse (jsSubstring (cleanResponse text) i (j + 1)) with
        | none => simp [hp, hnil, isErr]
        | some v =>
          have hnb : '[' ∉ jsSubstring (cleanResponse text) i (j + 1) := by
            intro hmem
            obtain ⟨hi1, hi2⟩ := idxFirst_spec _ _ _ h1
            unfold jsSubstring at hmem
            have hmin : min i (j + 1) = j + 1 := by omega
            have hmax : max i (j + 1) = i := by omega
            rw [hmin, hmax] at hmem
            obtain ⟨n, hn⟩ := List.mem_iff_getElem?.1 hmem
            rw [List.getElem?_take] at hn
            by_cases hlt : n < i - (j + 1)
            · rw [if_pos hlt, List.getElem?_drop] at hn
              exact hi2 (j + 1 + n) (by omega) hn
            · rw [if_neg hlt] at hn
              simp at hn
          cases v with
          | arr xs => exact absurd (jsonParse_arr_mem _ _ hp) hnb
          | null => simp [hp, hnil, isErr]
          | bool b => simp [hp, hnil, isErr]
          | num q => simp [hp, hnil, isErr]
          | str s => simp [hp, hnil, isErr]
          | obj kvs => simp [hp, hnil, isErr]

/-- C1: whenever the discovery phase (extraction call or parse step) throws,
the run aborts without merging: the Grant repository is unchanged. -/
theorem c1_failure_preserves_repository (apiKey : Bool) (cfg : SearchConfig) (e : Unit)
    (dLogs : List LogEntry) (notifyFails : Bool) (nLogs : List LogEntry) (s : AppState) :
    (handleRunDiscovery apiKey cfg (Except.error e) dLogs notifyFails nLogs s).state.grants =
      s.grants := by
  unfold handleRunDiscovery
  by_cases ha : apiKey = false
  · rw [if_pos ha]
  · rw [if_neg ha]
    by_cases hs : s.isScanning = true
    · rw [if_pos hs]
    · rw [if_neg hs]

/-- C2: when new Grants were merged and the notification dispatch throws,
the merge stands (the repository holds the new Grants in front of the old),
the failure is logged at ERROR level by the catch block, and the run still
reaches its finalization step (the final log entry is the finalize log).
The notification service itself is absent from the sources; its failure is
injected as the modelled outcome `notifyFails = true`. -/
theorem c2_notification_failure_nonfatal (cfg : SearchConfig) (results : List JsObj)
    (dLogs nLogs : List LogEntry) (s : AppState)
    (hscan : s.isScanning = false)
    (hgate : ((!(filterNew results (s.grants.map lowerTitle)).isEmpty) &&
      cfg.notificationEnabled && (cfg.emailRecipient != "")) = true) :
    (handleRunDiscovery true cfg (Except.ok results) dLogs true nLogs s).state.grants =
        filterNew results (s.grants.map lowerTitle) ++ s.grants ∧
    abortLog ∈ (handleRunDiscovery true cfg (Except.ok results) dLogs true nLogs s).state.logs ∧
    abortLog.level = LogLevel.ERROR ∧
    (handleRunDiscovery true cfg (Except.ok results) dLogs true nLogs s).state.logs.getLast? =
      some finalLog := by
  unfold handleRunDiscovery
  rw [if_neg (by simp), hscan]
  rw [if_neg (by simp)]
  dsimp only
  rw [if_pos hgate, if_pos rfl]
  refine ⟨rfl, ?_, rfl, ?_⟩
  · simp [List.mem_append]
  · simp [List.getLast?_append, List.getLast?_cons]

/-- C5: dedup arithmetic — `filterNew` returns exactly the candidates whose
lower-cased title is not in the existing set, in input order, and the
reported removed count equals the number of matching candidates. -/
theorem c5_dedup_arithmetic (candidates : List JsObj) (existingLower : List String) :
    filterNew candidates existingLower =
      candidates.filter (fun g => !(existingLower.contains (lowerTitle g))) ∧
    (filterNew candidates existingLower).length =
      candidates.length -
        (candidates.filter (fun g => existingLower.contains (lowerTitle g))).length ∧
    filteredCount candidates existingLower =
      (candidates.filter (fun g => existingLower.contains (lowerTitle g))).length := by
  have hpart : (candidates.filter (fun g => !(existingLower.contains (lowerTitle g)))).length +
      (candidates.filter (fun g => existingLower.contains (lowerTitle g))).length =
      candidates.length := by
    induction candidates with
    | nil => rfl
    | cons g rest ih =>
      by_cases hg : existingLower.contains (lowerTitle g) = true
      · simp only [List.filter_cons, hg, Bool.not_true, Bool.false_eq_true, eq_self_iff_true,
          if_true, if_false, List.length_cons]
        omega
      · rw [Bool.not_eq_true] at hg
        simp only [List.filter_cons, hg, Bool.not_false, Bool.false_eq_true, eq_self_iff_true,
          if_true, if_false, List.length_cons]
        omega
  refine ⟨rfl, ?_, ?_⟩
  · unfold filterNew
    omega
  · unfold filteredCount filterNew
    omega

/-- C6: in a run that reaches the notification phase, `sendNotification` is
invoked iff the deduplicated new-Grant list is non-empty, notifications are
enabled, and the recipient is a non-empty string. -/
theorem c6_notification_gating (cfg : SearchConfig) (results : List JsObj)
    (dLogs nLogs : List LogEntry) (notifyFails : Bool) (s : AppState)
    (hscan : s.isScanning = false) :
    ((handleRunDiscovery true cfg (Except.ok results) dLogs notifyFails nLogs s).notified = true) ↔
      (filterNew results (s.grants.map lowerTitle) ≠ [] ∧ cfg.notificationEnabled = true ∧
       cfg.emailRecipient ≠ "") := by
  unfold handleRunDiscovery
  rw [if_neg (by simp), hscan]
  rw [if_neg (by simp)]
  dsimp only
  by_cases hgate : ((!(filterNew results (s.grants.map lowerTitle)).isEmpty) &&
      cfg.notificationEnabled && (cfg.emailRecipient != "")) = true
  · rw [if_pos hgate]
    have hg := hgate
    simp only [Bool.and_eq_true, Bool.not_eq_true', List.isEmpty_eq_false, bne_iff_ne] at hg
    cases notifyFails
    · simpa using ⟨hg.1.1, hg.1.2, hg.2⟩
    · simpa using ⟨hg.1.1, hg.1.2, hg.2⟩
  · rw [if_neg hgate]
    have hg : ¬ (filterNew results (s.grants.map lowerTitle) ≠ [] ∧
        cfg.notificationEnabled = true ∧ cfg.emailRecipient ≠ "") := by
      intro ⟨h1, h2, h3⟩
      apply hgate
      simp only [Bool.and_eq_true, Bool.not_eq_true', List.isEmpty_eq_false, bne_iff_ne]
      exact ⟨⟨h1, h2⟩, h3⟩
    split
    · simpa using hg
    · simpa using hg

/-- C7: invoking the run entry point while a run is in progress is a no-op:
the state is returned untouched and nothing is dispatched.  (The API key is
a process-wide constant; a run being in progress implies it was present.) -/
theorem c7_single_flight (cfg : SearchConfig) (discover : Except Unit (List JsObj))
    (dLogs : List LogEntry) (notifyFails : Bool) (nLogs : List LogEntry) (s : AppState)
    (hscan : s.isScanning = true) :
    handleRunDiscovery true cfg discover dLogs notifyFails nLogs s = ⟨s, false⟩ := by
  unfold handleRunDiscovery
  rw [if_neg (by simp), hscan, if_pos rfl]

/-- A concrete configuration with notifications on and a recipient set. -/
def wCfg : SearchConfig := ⟨["grant application"], 2026, "user@example.com", true⟩

/-- A concrete Grant object. -/
def wGrantA : JsObj := [("program_title", Json.str "Alpha")]

/-- A concrete idle state. -/
def wStateIdle : AppState := ⟨false, [], []⟩

/-- A concrete mid-run state. -/
def wStateBusy : AppState := ⟨true, [], []⟩

/-- Witness for C2 at a concrete run. -/
theorem c2_notification_failure_nonfatal_witness :
    wStateIdle.isScanning = false ∧
    ((!(filterNew [wGrantA] (wStateIdle.grants.map lowerTitle)).isEmpty) &&
      wCfg.notificationEnabled && (wCfg.emailRecipient != "")) = true ∧
    ((handleRunDiscovery true wCfg (Except.ok [wGrantA]) [] true [] wStateIdle).state.grants =
        filterNew [wGrantA] (wStateIdle.grants.map lowerTitle) ++ wStateIdle.grants ∧
      abortLog ∈ (handleRunDiscovery true wCfg (Except.ok [wGrantA]) [] true [] wStateIdle).state.logs ∧
      abortLog.level = LogLevel.ERROR ∧
      (handleRunDiscovery true wCfg (Except.ok [wGrantA]) [] true [] wStateIdle).state.logs.getLast? =
        some finalLog) := by
  refine ⟨rfl, by decide, ?_⟩
  exact c2_notification_failure_nonfatal wCfg [wGrantA] [] [] wStateIdle rfl (by decide)

/-- Witness for C6 at a concrete run. -/
theorem c6_notification_gating_witness :
    wStateIdle.isScanning = false ∧
    (((handleRunDiscovery true wCfg (Except.ok [wGrantA]) [] false [] wStateIdle).notified = true) ↔
      (filterNew [wGrantA] (wStateIdle.grants.map lowerTitle) ≠ [] ∧
       wCfg.notificationEnabled = true ∧ wCfg.emailRecipient ≠ "")) :=
  ⟨rfl, c6_notification_gating wCfg [wGrantA] [] [] false wStateIdle rfl⟩

/-- Witness for C7 at a concrete mid-run state. -/
theorem c7_single_flight_witness :
    wStateBusy.isScanning = true ∧
    handleRunDiscovery true wCfg (Except.ok [wGrantA]) [] false [] wStateBusy =
      ⟨wStateBusy, false⟩ :=
  ⟨rfl, c7_single_flight wCfg (Except.ok [wGrantA]) [] false [] wStateBusy rfl⟩

/-- One run preserves the no-duplicate-titles invariant, provided its own
candidate batch has pairwise-distinct lower-cased titles. -/
theorem handleRun_preserves_titlesNodup (apiKey : Bool) (cfg : SearchConfig)
    (discover : Except Unit (List JsObj)) (dLogs : List LogEntry)
    (notifyFails : Bool) (nLogs : List LogEntry) (s : AppState)
    (hs : titlesNodup s.grants)
    (hbatch : ∀ results, discover = Except.ok results → (results.map lowerTitle).Nodup) :
    titlesNodup (handleRunDiscovery apiKey cfg discover dLogs notifyFails nLogs s).state.grants := by
  unfold handleRunDiscovery
  by_cases ha : apiKey = false
  · rw [if_pos ha]; exact hs
  · rw [if_neg ha]
    by_cases hsc : s.isScanning = true
    · rw [if_pos hsc]; exact hs
    · rw [if_neg hsc]
      cases hd : discover with
      | error e => exact hs
      | ok results =>
        dsimp only
        have hres := hbatch results hd
        have key : titlesNodup (filterNew results (s.grants.map lowerTitle) ++ s.grants) := by
          unfold titlesNodup at *
          rw [List.map_append, List.nodup_append]
          refine ⟨hres.sublist (List.Sublist.map _ (List.filter_sublist _)), hs, ?_⟩
          intro a ha1 ha2
          obtain ⟨g, hg, rfl⟩ := List.mem_map.1 ha1
          unfold filterNew at hg
          rw [List.mem_filter] at hg
          obtain ⟨_, hgp⟩ := hg
          rw [Bool.not_eq_true'] at hgp
          have hc : (s.grants.map lowerTitle).contains (lowerTitle g) = true := by
            rw [List.contains, List.elem_iff]
            exact ha2
          rw [hgp] at hc
          exact absurd hc (by simp)
        split
        · split
          · exact key
          · exact key
        · split
          · exact key
          · exact key

theorem runTraceFrom_titlesNodup (inputs : List RunInput) (s : AppState)
    (hs : titlesNodup s.grants)
    (h : ∀ i ∈ inputs, ∀ results, i.discover = Except.ok results →
      (results.map lowerTitle).Nodup) :
    titlesNodup (runTraceFrom s inputs).grants := by
  induction inputs generalizing s with
  | nil => exact hs
  | cons i rest ih =>
    refine ih _ ?_ ?_
    · exact handleRun_preserves_titlesNodup _ _ _ _ _ _ _ hs
        (h i (List.mem_cons_self _ _))
    · intro i' hi'
      exact h i' (List.mem_cons_of_mem _ hi')

/-- A run whose extraction yields two candidates with case-insensitively
equal titles: the dedup step filters only against previously accumulated
Grants, so both are merged. -/
def c8input : RunInput :=
  ⟨true, wCfg,
   Except.ok [[("program_title", Json.str "Alpha")], [("program_title", Json.str "ALPHA")]],
   [], false, []⟩

/-- C8 counterexample: starting from the empty repository, a single run
whose batch contains two Grants with equal lower-cased titles leaves the
repository with a duplicated title — the claimed invariant fails for
within-batch duplicates. -/
theorem c8_counterexample : ¬ titlesNodup ((runTrace [c8input]).grants) := by decide

/-- C8 (amended): across every sequence of runs starting from the empty
repository, the repository never holds two Grants with equal lower-cased
titles, provided each run's candidate batch itself has pairwise-distinct
lower-cased titles.  Dedup filters only against previously accumulated
Grants, so within-batch duplicates are not removed (see the counterexample). -/
theorem c8_title_invariant (inputs : List RunInput)
    (h : ∀ i ∈ inputs, ∀ results, i.discover = Except.ok results →
      (results.map lowerTitle).Nodup) :
    titlesNodup (runTrace inputs).grants :=
  runTraceFrom_titlesNodup inputs initialState (by simp [initialState, titlesNodup]) h

/-- A run input whose batch has distinct titles, for the C8 witness. -/
def c8inputOk : RunInput := ⟨true, wCfg, Except.ok [wGrantA], [], false, []⟩

/-- Witness for the amended C8 on a concrete one-run trace. -/
theorem c8_title_invariant_witness :
    (∀ i ∈ [c8inputOk], ∀ results, i.discover = Except.ok results →
      (results.map lowerTitle).Nodup) ∧
    titlesNodup (runTrace [c8inputOk]).grants := by
  have h : ∀ i ∈ [c8inputOk], ∀ results, i.discover = Except.ok results →
      (results.map lowerTitle).Nodup := by
    intro i hi results hres
    rw [List.mem_singleton] at hi
    subst hi
    injection hres with h2
    subst h2
    decide
  exact ⟨h, c8_title_invariant [c8inputOk] h⟩

theorem dropWhile_append_head (p : Char → Bool) (a : List Char) (c : Char) (b : List Char)
    (hc : p c = false) :
    (a ++ c :: b).dropWhile p = a.dropWhile p ++ c :: b := by
  induction a with
  | nil => simp [List.dropWhile_cons, hc]
  | cons x xs ih =>
    by_cases hx : p x = true
    · simp [List.dropWhile_cons, hx, ih]
    · simp [List.dropWhile_cons, hx]

theorem rtrim_append (a b : List Char) (c : Char) (hc : jsWs c = false) :
    rtrim ((a ++ [c]) ++ b) = (a ++ [c]) ++ rtrim b := by
  unfold rtrim
  rw [List.reverse_append, List.reverse_append]
  rw [show ([c].reverse ++ a.reverse) = c :: a.reverse by simp]
  rw [dropWhile_append_head _ _ _ _ hc]
  rw [List.reverse_append, List.reverse_cons]
  simp [List.append_assoc]

theorem mem_rtrim_subset (l : List Char) (x : Char) (hx : x ∈ rtrim l) : x ∈ l := by
  unfold rtrim at hx
  rw [List.mem_reverse] at hx
  exact List.mem_reverse.1 ((List.dropWhile_sublist _).subset hx)

theorem head_eq_cons (t : List Char) (c : Char) (h : t.head? = some c) :
    ∃ t1, t = c :: t1 := by
  cases t with
  | nil => simp at h
  | cons x xs =>
    simp only [List.head?_cons, Option.some.injEq] at h
    exact ⟨xs, by rw [h]⟩

theorem getLast_eq_concat (t : List Char) (c : Char) (h : t.getLast? = some c) :
    ∃ t2, t = t2 ++ [c] := by
  have hr : t.reverse.head? = some c := by rw [List.head?_reverse]; exact h
  obtain ⟨r1, hr1⟩ := head_eq_cons _ _ hr
  refine ⟨r1.reverse, ?_⟩
  have := congrArg List.reverse hr1
  rw [List.reverse_reverse, List.reverse_cons] at this
  exact this

theorem stripLeadFence_decomp (p t s : List Char) (hh : t.head? = some '[') :
    ∃ p2, stripLeadFence ((p ++ t) ++ s) = (p2 ++ t) ++ s ∧ (∀ x ∈ p2, x ∈ p) := by
  obtain ⟨t1, rfl⟩ := head_eq_cons t '[' hh
  unfold stripLeadFence
  by_cases hf : fenceOpen.isPrefixOf ((p ++ '[' :: t1) ++ s) = true
  · rw [if_pos hf]
    have hpfx : fenceOpen <+: ((p ++ '[' :: t1) ++ s) := List.isPrefixOf_iff_prefix.1 hf
    obtain ⟨u, hu⟩ := hpfx
    have hlen : 7 ≤ p.length := by
      by_contra hlt
      push_neg at hlt
      have hc1 : p.length < (p ++ '[' :: t1).length := by simp [List.length_append]
      have h1 : ((p ++ '[' :: t1) ++ s)[p.length]? = some '[' := by
        rw [List.getElem?_append, if_pos hc1, List.getElem?_append_right (le_refl _)]
        simp
      have hc2 : p.length < fenceOpen.length := hlt
      have h2 : (fenceOpen ++ u)[p.length]? = fenceOpen[p.length]? := by
        rw [List.getElem?_append, if_pos hc2]
      rw [hu, h1] at h2
      have hmem : '[' ∈ fenceOpen := List.mem_iff_getElem?.2 ⟨p.length, h2.symm⟩
      exact absurd hmem (by decide)
    refine ⟨(p.drop 7).dropWhile jsWs, ?_, ?_⟩
    · have hfl : fenceOpen.length = 7 := rfl
      rw [hfl, List.append_assoc, List.drop_append_of_le_length hlen]
      rw [List.cons_append, dropWhile_append_head _ _ _ _ (by decide)]
      simp [List.append_assoc]
    · intro x hx
      exact (List.drop_subset _ _) ((List.dropWhile_sublist _).subset hx)
  · rw [if_neg hf]
    exact ⟨p, rfl, fun x hx => hx⟩

theorem mem_fence_of_prefix (fence a : List Char) (c : Char) (b : List Char)
    (hpfx : fence <+: (a ++ c :: b)) (hlt : a.length < fence.length) : c ∈ fence := by
  obtain ⟨u, hu⟩ := hpfx
  have h1 : (a ++ c :: b)[a.length]? = some c := by
    rw [List.getElem?_append_right (le_refl _)]
    simp
  have h2 : (fence ++ u)[a.length]? = fence[a.length]? := by
    rw [List.getElem?_append, if_pos hlt]
  rw [hu, h1] at h2
  exact List.mem_iff_getElem?.2 ⟨a.length, h2.symm⟩

theorem stripTrailFence_decomp (p t s : List Char) (hl : t.getLast? = some ']') :
    ∃ s2, stripTrailFence ((p ++ t) ++ s) = (p ++ t) ++ s2 ∧ (∀ x ∈ s2, x ∈ s) := by
  obtain ⟨t2, rfl⟩ := getLast_eq_concat t ']' hl
  unfold stripTrailFence
  by_cases hf : fenceClose.isSuffixOf ((p ++ (t2 ++ [']'])) ++ s) = true
  · rw [if_pos hf]
    have hsfx : fenceClose <:+ ((p ++ (t2 ++ [']'])) ++ s) := List.isSuffixOf_iff_suffix.1 hf
    have hlen : 3 ≤ s.length := by
      by_contra hlt
      push_neg at hlt
      have hpfx : fenceClose.reverse <+: ((p ++ (t2 ++ [']'])) ++ s).reverse :=
        List.reverse_prefix.2 hsfx
      have hrew : ((p ++ (t2 ++ [']'])) ++ s).reverse =
          s.reverse ++ ']' :: (t2.reverse ++ p.reverse) := by
        simp [List.reverse_append]
      rw [hrew] at hpfx
      have hmem : ']' ∈ fenceClose.reverse :=
        mem_fence_of_prefix _ _ _ _ hpfx (by simpa using hlt)
      exact absurd hmem (by decide)
    refine ⟨rtrim (s.take (s.length - 3)), ?_, ?_⟩
    · have hfl : fenceClose.length = 3 := rfl
      have htot : ((p ++ (t2 ++ [']'])) ++ s).length - 3 =
          (p ++ (t2 ++ [']'])).length + (s.length - 3) := by
        simp only [List.length_append, List.length_cons, List.length_nil]
        omega
      rw [hfl, htot, List.take_append]
      rw [show (p ++ (t2 ++ [']'])) = ((p ++ t2) ++ [']']) from (List.append_assoc _ _ _).symm]
      rw [rtrim_append _ _ _ (by decide)]
    · intro x hx
      exact (List.take_subset _ _) (mem_rtrim_subset _ _ hx)
  · rw [if_neg hf]
    exact ⟨s, rfl, fun x hx => hx⟩

theorem jsTrim_decomp (pre t suf : List Char)
    (hh : t.head? = some '[') (hl : t.getLast? = some ']') :
    ∃ p1 s1, jsTrim ((pre ++ t) ++ suf) = (p1 ++ t) ++ s1 ∧
      (∀ x ∈ p1, x ∈ pre) ∧ (∀ x ∈ s1, x ∈ suf) := by
  obtain ⟨t1, ht1⟩ := head_eq_cons t '[' hh
  obtain ⟨t2, ht2⟩ := getLast_eq_concat t ']' hl
  unfold jsTrim
  have hd : List.dropWhile jsWs ((pre ++ t) ++ suf) = (pre.dropWhile jsWs ++ t) ++ suf := by
    rw [List.append_assoc, ht1, List.cons_append]
    rw [dropWhile_append_head _ _ _ _ (by decide)]
    rw [← List.cons_append, ← ht1, ← List.append_assoc]
  rw [hd]
  have hr : rtrim ((pre.dropWhile jsWs ++ t) ++ suf) =
      (pre.dropWhile jsWs ++ t) ++ rtrim suf := by
    rw [ht2]
    rw [show pre.dropWhile jsWs ++ (t2 ++ [']']) = (pre.dropWhile jsWs ++ t2) ++ [']'] from
      (List.append_assoc _ _ _).symm]
    rw [rtrim_append _ _ _ (by decide)]
  rw [hr]
  refine ⟨pre.dropWhile jsWs, rtrim suf, rfl, ?_, ?_⟩
  · intro x hx
    exact (List.dropWhile_sublist _).subset hx
  · intro x hx
    exact mem_rtrim_subset _ _ hx

theorem cleanResponse_decomp (pre t suf : List Char)
    (hpre : '[' ∉ pre) (hsuf : ']' ∉ suf)
    (hh : t.head? = some '[') (hl : t.getLast? = some ']') :
    ∃ p2 s2, cleanResponse ((pre ++ t) ++ suf) = (p2 ++ t) ++ s2 ∧ '[' ∉ p2 ∧ ']' ∉ s2 := by
  obtain ⟨p1, s1, he, hsub1, hsub2⟩ := jsTrim_decomp pre t suf hh hl
  unfold cleanResponse
  rw [he]
  obtain ⟨p2, he2, hsub3⟩ := stripLeadFence_decomp p1 t s1 hh
  rw [he2]
  obtain ⟨s2, he3, hsub4⟩ := stripTrailFence_decomp p2 t s1 hl
  rw [he3]
  refine ⟨p2, s2, rfl, ?_, ?_⟩
  · intro hm
    exact hpre (hsub1 _ (hsub3 _ hm))
  · intro hm
    exact hsuf (hsub2 _ (hsub4 _ hm))

theorem idxFirst_append_cons (c : Char) (a b : List Char) (ha : c ∉ a) (hb : b.head? = some c) :
    idxFirst c (a ++ b) = some a.length := by
  obtain ⟨b1, rfl⟩ := head_eq_cons b c hb
  induction a with
  | nil => simp [idxFirst]
  | cons x xs ih =>
    have hx : x ≠ c := fun h => ha (h ▸ List.mem_cons_self _ _)
    simp only [List.cons_append, idxFirst, if_neg hx, List.append_eq]
    rw [ih (fun hm => ha (List.mem_cons_of_mem _ hm))]
    simp

theorem idxLast_append_concat (c : Char) (a b : List Char) (hb : c ∉ b)
    (ha : a.getLast? = some c) :
    idxLast c (a ++ b) = some (a.length - 1) := by
  have hane : a ≠ [] := by
    intro h
    rw [h] at ha
    simp at ha
  unfold idxLast
  have hr : idxFirst c ((a ++ b).reverse) = some b.length := by
    rw [List.reverse_append]
    have := idxFirst_append_cons c b.reverse a.reverse
      (fun hm => hb (List.mem_reverse.1 hm))
      (by rw [List.head?_reverse]; exact ha)
    rw [this]
    simp
  rw [hr]
  simp only [Option.map_some', Option.some.injEq, List.length_append]
  have : a.length ≥ 1 := by
    cases a with
    | nil => exact absurd rfl hane
    | cons y ys => simp
  omega

theorem jsSubstring_decomp (p t s : List Char) (ht : 1 ≤ t.length) :
    jsSubstring ((p ++ t) ++ s) p.length (p.length + t.length - 1 + 1) = t := by
  unfold jsSubstring
  have h1 : p.length + t.length - 1 + 1 = p.length + t.length := by omega
  rw [h1]
  have hmin : min p.length (p.length + t.length) = p.length := by omega
  have hmax : max p.length (p.length + t.length) = p.length + t.length := by omega
  rw [hmin, hmax]
  rw [List.append_assoc, List.drop_left]
  have h2 : p.length + t.length - p.length = t.length := by omega
  rw [h2, List.take_left]

/-- The characters of the response text `[{"program_title":"Alpha"}]`. -/
def c3arr : List Char :=
  ['[', lBrace, qMark, 'p', 'r', 'o', 'g', 'r', 'a', 'm', '_', 't', 'i', 't', 'l', 'e', qMark,
   ':', qMark, 'A', 'l', 'p', 'h', 'a', qMark, rBrace, ']']

/-- C3 counterexample: `[{"program_title":"Alpha"}]` is a valid JSON
Grant-array text, but wrapping it with the prose prefix `"See [1]: "` —
prose that itself contains a `[` — makes the parse stage fail: the slice
from the first `[` to the last `]` is `"[1]: [...]"`, which is not valid
JSON.  The claim quantifies over arbitrary prose prefixes, so it fails. -/
theorem c3_counterexample :
    jsonParse c3arr =
      some (Json.arr [Json.obj [("program_title", Json.str "Alpha")]]) ∧
    isErr (discoverGrantsParse wFresh wRand ("See [1]: ".toList ++ c3arr ++ [])) = true :=
  ⟨rfl, rfl⟩

/-- C3 (amended): for every valid JSON Grant-array text `t` (starting with
`[` and ending with `]`) and every prose or fence prefix containing no `[`
and suffix containing no `]`, parsing the wrapped text succeeds and yields
exactly the Grants of the bare text: the payload elements of the array, in
order, each extended with the generated id and confidence score. -/
theorem c3_noise_tolerance (fresh : Nat → String) (rand : Nat → ℚ) (pre t suf : List Char)
    (ps : List Json)
    (hpre : '[' ∉ pre) (hsuf : ']' ∉ suf)
    (hh : t.head? = some '[') (hl : t.getLast? = some ']')
    (hparse : jsonParse t = some (Json.arr ps)) :
    discoverGrantsParse fresh rand ((pre ++ t) ++ suf) =
      Except.ok (mapWithIdx (fun i item => mkGrant (fresh i) (confAt rand i) item) 0 ps) ∧
    discoverGrantsParse fresh rand t =
      Except.ok (mapWithIdx (fun i item => mkGrant (fresh i) (confAt rand i) item) 0 ps) := by
  obtain ⟨t1, ht1⟩ := head_eq_cons t '[' hh
  have htlen : 1 ≤ t.length := by
    rw [ht1]
    simp
  have main : ∀ pre' suf', '[' ∉ pre' → ']' ∉ suf' →
      discoverGrantsParse fresh rand ((pre' ++ t) ++ suf') =
        Except.ok (mapWithIdx (fun i item => mkGrant (fresh i) (confAt rand i) item) 0 ps) := by
    intro pre' suf' hpre' hsuf'
    obtain ⟨p2, s2, hclean, hp2, hs2⟩ := cleanResponse_decomp pre' t suf' hpre' hsuf' hh hl
    have hidx1 : idxFirst '[' ((p2 ++ t) ++ s2) = some p2.length := by
      rw [List.append_assoc]
      exact idxFirst_append_cons '[' p2 (t ++ s2) hp2 (by rw [ht1]; simp)
    have hidx2 : idxLast ']' ((p2 ++ t) ++ s2) = some ((p2 ++ t).length - 1) :=
      idxLast_append_concat ']' (p2 ++ t) s2 hs2 (by rw [List.getLast?_append, hl]; rfl)
    have hlen2 : (p2 ++ t).length - 1 = p2.length + t.length - 1 := by
      simp
    have hslice : jsSubstring ((p2 ++ t) ++ s2) p2.length ((p2 ++ t).length - 1 + 1) = t := by
      rw [hlen2]
      exact jsSubstring_decomp p2 t s2 htlen
    unfold discoverGrantsParse
    simp only [hclean, hidx1, hidx2, hslice, hparse]
  refine ⟨main pre suf hpre hsuf, ?_⟩
  have h0 := main [] [] (by simp) (by simp)
  simpa using h0

/-- Witness for the amended C3 at a concrete wrapped response. -/
theorem c3_noise_tolerance_witness :
    ('[' ∉ "Here are the results: ".toList) ∧ (']' ∉ " done".toList) ∧
    "[null]".toList.head? = some '[' ∧ "[null]".toList.getLast? = some ']' ∧
    jsonParse "[null]".toList = some (Json.arr [Json.null]) ∧
    (discoverGrantsParse wFresh wRand
        (("Here are the results: ".toList ++ "[null]".toList) ++ " done".toList) =
      Except.ok (mapWithIdx (fun i item => mkGrant (wFresh i) (confAt wRand i) item) 0
        [Json.null]) ∧
     discoverGrantsParse wFresh wRand "[null]".toList =
      Except.ok (mapWithIdx (fun i item => mkGrant (wFresh i) (confAt wRand i) item) 0
        [Json.null])) := by
  refine ⟨by decide, by decide, by decide, by decide, rfl, ?_⟩
  exact c3_noise_tolerance wFresh wRand _ _ _ [Json.null]
    (by decide) (by decide) (by decide) (by decide) rfl
